import Mathlib

/-!
# Sparse Merkle tree map hasher (`merkle/maphasher/maphasher.go`)

A shallow embedding of the Go package `maphasher` and a verification of its
hashing scheme: leaf hashing, inner-node hashing, the table of null hashes
built by `initNullHashes`, and the lookup `HashEmpty`.

Conventions of the embedding.

* A byte is a `Fin 256`; a `[]byte` is a `List Byte` (the `nil` slice is `[]`).
* `crypto.Hash` comes from the Go standard library.  It is a parameter of the
  development: a digest size and the function from the bytes written to the
  digest.  Its streaming interface (`New`, `Write`, `Sum`) is embedded as a
  buffer of the bytes written so far.
* Go panics are values of `Panic`; a function that can panic returns
  `Except Panic _`.
* For the claim about what a call may change, the method bodies are also
  written over a store (`Store`): the receiver object and a heap of byte
  arrays, with a `[]byte` as a reference (`Slice`).  There `HashEmpty` hands
  back the table's own slice, as the Go code does.
* The `glog.V(5)` blocks only log; they are left out.  The one in `HashEmpty`
  evaluates the same index expression as the `return` that follows it, so it
  panics exactly when the `return` does.
-/

namespace maphasher

/-! ## Bytes and the hash primitive -/

/-- One Go `byte`. -/
abbrev Byte := Fin 256

/-- A Go `[]byte` holding a digest (or any byte string). -/
abbrev Digest := List Byte

/-- The handle `crypto.Hash`: `Size` is what `Size()` returns (the digest size
in bytes, read by the standard library from a table of `uint8`, hence below
`256`), and `digest` is the hash function itself, from the bytes written to a
fresh state to the digest that `Sum` appends. -/
structure CryptoHash where
  Size : Nat
  Size_lt : Size < 256
  digest : List Byte → Digest

/-- A running `hash.Hash`: the handle it was created from and the bytes written
so far. -/
structure HashState where
  hash : CryptoHash
  written : List Byte

/-- The call `h.New()`: a fresh state, nothing written. -/
def CryptoHash.New (h : CryptoHash) : HashState :=
  { hash := h, written := [] }

/-- The call `h.Write(p)`: appends `p` to the running state. -/
def HashState.Write (s : HashState) (p : List Byte) : HashState :=
  { s with written := s.written ++ p }

/-- The call `h.Sum(b)`: appends the digest of everything written to `b`. -/
def HashState.Sum (s : HashState) (b : List Byte) : List Byte :=
  b ++ s.hash.digest s.written

/-! ## Node identifiers -/

/-- Modelled from the spec: the type `tree.NodeID2` is declared outside this
package.  A node ID "identifies a tree position by a bit-path prefix and its
length"; the hasher only reads that length. -/
structure NodeID2 where
  path : List Bool
deriving DecidableEq, Repr

/-- Modelled from the spec: `NodeID2.BitLen()`, the depth of the node, the
bit-length of its path as a Go `uint` (64 bits). -/
def NodeID2.BitLen (n : NodeID2) : Nat :=
  n.path.length % 2 ^ 64

/-- The zero value `tree.NodeID2{}`. -/
def NodeID2.zero : NodeID2 :=
  { path := [] }

/-! ## Panics and machine integers -/

/-- The two ways `HashEmpty` can panic: its own guard, with the depth it
prints, and the runtime's index-out-of-range check, with the index and the
length of the slice. -/
inductive Panic where
  | outOfBounds (depth : Nat)
  | indexOutOfRange (index : Int) (len : Nat)
deriving DecidableEq, Repr

/-- The conversion `int(u)` of a `uint` to a 64-bit `int`. -/
def uintToInt (u : Nat) : Int :=
  if u % 2 ^ 64 < 2 ^ 63 then ((u % 2 ^ 64 : Nat) : Int)
  else ((u % 2 ^ 64 : Nat) : Int) - 2 ^ 64

/-- The conversion `uint(i)` of the `int` product `len * 8` to `uint`. -/
def intToUint (i : Int) : Nat :=
  (i % 2 ^ 64).toNat

/-- Slice indexing `xs[i]` with Go's bounds check. -/
def index {α : Type} (xs : List α) (i : Int) : Except Panic α :=
  if 0 ≤ i then
    match xs[i.toNat]? with
    | some x => Except.ok x
    | none => Except.error (Panic.indexOutOfRange i xs.length)
  else Except.error (Panic.indexOutOfRange i xs.length)

/-! ## The hasher -/

/-- The constant `leafHashPrefix = 0`. -/
def leafHashPrefix : Byte := 0

/-- The constant `nodeHashPrefix = 1`. -/
def nodeHashPrefix : Byte := 1

/-- The struct `MapHasher`: the embedded `crypto.Hash` and the cache
`nullHashes`. -/
structure MapHasher where
  Hash : CryptoHash
  nullHashes : List Digest

/-- The hash state of `HashLeaf` right before `Sum`: `m.New()`, then
`Write([]byte{leafHashPrefix})`, then `Write(leaf)`. -/
def leafState (m : MapHasher) (leaf : List Byte) : HashState :=
  let h := m.Hash.New
  let h := h.Write [ leafHashPrefix]
  let h := h.Write leaf
  h

/-- The method `HashLeaf`: the three writes of `leafState`, then `h.Sum(nil)`. -/
def HashLeaf (m : MapHasher) (_treeID : Int) (_id : NodeID2) (leaf : List Byte) : Digest :=
  let h := leafState m leaf
  let r := h.Sum []
  r

/-- The hash state of `HashChildren` right before `Sum`: `m.New()`, then
`Write([]byte{nodeHashPrefix})`, `Write(l)`, `Write(r)`. -/
def childrenState (m : MapHasher) (l r : List Byte) : HashState :=
  let h := m.Hash.New
  let h := h.Write [ nodeHashPrefix]
  let h := h.Write l
  let h := h.Write r
  h

/-- The method `HashChildren`: the writes of `childrenState`, then
`h.Sum(nil)`. -/
def HashChildren (m : MapHasher) (l r : List Byte) : Digest :=
  let h := childrenState m l r
  let p := h.Sum []
  p

/-- The method `BitLen`: `m.Size() * 8`. -/
def BitLen (m : MapHasher) : Nat :=
  m.Hash.Size * 8

/-- The loop of `initNullHashes`,
`for i := 1; i < nodes; i++ { r[i] = m.HashChildren(r[i-1], r[i-1]) }`,
from index `i` on.  The first argument bounds the iterations left; the loop
is entered with `nodes` of them, more than it ever runs. -/
def initLoop (m : MapHasher) (nodes : Nat) : Nat → Nat → List Digest → List Digest
  | 0, _, r => r
  | fuel + 1, i, r =>
    if i < nodes then
      initLoop m nodes fuel (i + 1)
        (r.set i (HashChildren m (r.getD (i - 1) []) (r.getD (i - 1) [])))
    else r

/-- The method `initNullHashes`: `make([][]byte, nodes)` is a slice of `nodes`
nil entries, entry `0` is the hash of the empty leaf, the loop fills the
rest, and the result is stored in `m.nullHashes`. -/
def initNullHashes (m : MapHasher) : MapHasher :=
  let nodes := m.Hash.Size * 8 + 1
  let r : List Digest := List.replicate nodes []
  let r := r.set 0 (HashLeaf m 0 NodeID2.zero [])
  let r := initLoop m nodes nodes 1 r
  { m with nullHashes := r }

/-- The constructor `New`. -/
def New (h : CryptoHash) : MapHasher :=
  let m : MapHasher := { Hash := h, nullHashes := [] }
  initNullHashes m

/-- The method `HashEmpty`: the guard on the depth, then the table entry at
`height = m.BitLen() - int(root.BitLen())`. -/
def HashEmpty (m : MapHasher) (_treeID : Int) (root : NodeID2) : Except Panic Digest :=
  let depth := root.BitLen
  if depth ≥ intToUint ((m.nullHashes.length : Int) * 8) then
    Except.error (Panic.outOfBounds depth)
  else
    let height : Int := (BitLen m : Int) - uintToInt root.BitLen
    index m.nullHashes height

/-! ## Reference computations -/

/-- The hash of an all-empty subtree of height `k`, by recursion on `k`:
the hash of the bytes `0x00` at height `0`, and the hash of `0x01` followed by
the previous value twice above. -/
def nullHashAt (h : CryptoHash) : Nat → Digest
  | 0 => h.digest [0]
  | k + 1 => h.digest (1 :: (nullHashAt h k ++ nullHashAt h k))

/-- A binary tree with a value at each leaf; a leaf also records its node ID. -/
inductive Tree where
  | leaf (id : NodeID2) (value : List Byte)
  | node (left right : Tree)
deriving Repr

/-- Specification side: the Merkle root of a tree, computed naively, with
`HashLeaf` on each leaf and `HashChildren` on each pair of subtree roots. -/
def merkleRoot (m : MapHasher) (treeID : Int) : Tree → Digest
  | Tree.leaf id value => HashLeaf m treeID id value
  | Tree.node l r => HashChildren m (merkleRoot m treeID l) (merkleRoot m treeID r)

/-- The node ID one level down, along bit `b`. -/
def NodeID2.child (n : NodeID2) (b : Bool) : NodeID2 :=
  { path := n.path ++ [b] }

/-- Specification side: the complete binary tree of height `k` rooted at
position `pos`, every leaf holding the empty value. -/
def emptySubtree : Nat → NodeID2 → Tree
  | 0, pos => Tree.leaf pos []
  | k + 1, pos => Tree.node (emptySubtree k (pos.child false)) (emptySubtree k (pos.child true))

/-- The values at the leaves of a tree, left to right. -/
def Tree.leafValues : Tree → List (List Byte)
  | Tree.leaf _ value => [value]
  | Tree.node l r => l.leafValues ++ r.leafValues

/-! ## The package default -/

/-- The package variable `Default = New(crypto.SHA256)`; the SHA-256 handle of
the standard library is the parameter `sha256`. -/
def Default (sha256 : CryptoHash) : MapHasher :=
  New sha256

/-! ## The methods over a heap of byte arrays

The definitions above treat a `[]byte` as the bytes it holds.  To speak about
what a method call may change, the same method bodies are written once more
over a store: the object behind the receiver `*MapHasher` and the heap of
backing arrays, where a `[]byte` is a reference and two references may name
the same array. -/

/-- A `[]byte` value as Go passes it around: `nil`, or a reference to a
backing array on the heap. -/
inductive Slice where
  | nil
  | ref (addr : Nat)
deriving DecidableEq, Repr

/-- The object behind a `*MapHasher` and the heap: the field `Hash`, the field
`nullHashes` as the slice values it holds, and the backing arrays of all
`[]byte` values, by address. -/
structure Store where
  Hash : CryptoHash
  nullHashes : List Slice
  heap : List (List Byte)

/-- The bytes a slice value refers to. -/
def Store.read (σ : Store) : Slice → List Byte
  | Slice.nil => []
  | Slice.ref a => σ.heap.getD a []

/-- A slice value is `nil` or refers to an array that exists. -/
def Store.valid (σ : Store) : Slice → Prop
  | Slice.nil => True
  | Slice.ref a => a < σ.heap.length

/-- The store `σ'` has the fields of `σ` and a heap that only grew: every
array of `σ` is still there with the bytes it had. -/
def Store.Extends (σ σ' : Store) : Prop :=
  σ'.Hash = σ.Hash ∧ σ'.nullHashes = σ.nullHashes ∧ ∃ extra, σ'.heap = σ.heap ++ extra

/-- A fresh backing array holding `bs`, as a composite literal `[]byte{...}`
makes one. -/
def Store.alloc (σ : Store) (bs : List Byte) : Slice × Store :=
  (Slice.ref σ.heap.length, { σ with heap := σ.heap ++ [bs] })

/-- The value of `append([]byte(nil), bs...)`, which is what `h.Sum(nil)`
returns: `nil` when `bs` is empty, a fresh array holding `bs` otherwise. -/
def Store.appendNil (σ : Store) (bs : List Byte) : Slice × Store :=
  if bs.isEmpty then (Slice.nil, σ) else σ.alloc bs

/-- A caller's assignment `s[i] = b` through a slice value, for `i` in range.
No method of the package does this. -/
def Store.write (σ : Store) (s : Slice) (i : Nat) (b : Byte) : Store :=
  match s with
  | Slice.nil => σ
  | Slice.ref a => { σ with heap := σ.heap.set a ((σ.heap.getD a []).set i b) }

/-- The contents of the null-hash table: the bytes behind each entry. -/
def Store.table (σ : Store) : List Digest :=
  σ.nullHashes.map σ.read

/-- The hasher a store stands for, entries read through the heap. -/
def Store.toMapHasher (σ : Store) : MapHasher :=
  { Hash := σ.Hash, nullHashes := σ.table }

/-- The method `HashLeaf` over the store: `m.New()`, the literal
`[]byte{leafHashPrefix}` and its `Write`, `Write(leaf)`, and `Sum(nil)`. -/
def Store.HashLeaf (σ : Store) (_treeID : Int) (_id : NodeID2) (leaf : Slice) : Slice × Store :=
  let h := σ.Hash.New
  let a := σ.alloc [ leafHashPrefix]
  let h := h.Write (a.2.read a.1)
  let h := h.Write (a.2.read leaf)
  a.2.appendNil (h.Sum [])

/-- The method `HashChildren` over the store: `m.New()`, the literal
`[]byte{nodeHashPrefix}` and its `Write`, `Write(l)`, `Write(r)`, and
`Sum(nil)`. -/
def Store.HashChildren (σ : Store) (l r : Slice) : Slice × Store :=
  let h := σ.Hash.New
  let a := σ.alloc [ nodeHashPrefix]
  let h := h.Write (a.2.read a.1)
  let h := h.Write (a.2.read l)
  let h := h.Write (a.2.read r)
  a.2.appendNil (h.Sum [])

/-- The method `BitLen` over the store: `m.Size() * 8`. -/
def Store.BitLen (σ : Store) : Nat × Store :=
  (σ.Hash.Size * 8, σ)

/-- The method `HashEmpty` over the store: the guard, then the slice value
held in the table at `height`, handed back as it is, not copied. -/
def Store.HashEmpty (σ : Store) (_treeID : Int) (root : NodeID2) : Except Panic Slice × Store :=
  let depth := root.BitLen
  if depth ≥ intToUint ((σ.nullHashes.length : Int) * 8) then
    (Except.error (Panic.outOfBounds depth), σ)
  else
    let b := σ.BitLen
    let height : Int := (b.1 : Int) - uintToInt root.BitLen
    (index b.2.nullHashes height, b.2)

/-- The loop of `initNullHashes` over the store, from index `i` on, with the
slice `r` being filled; the first argument bounds the iterations left. -/
def Store.initLoop (nodes : Nat) : Nat → Nat → List Slice → Store → List Slice × Store
  | 0, _, r, σ => (r, σ)
  | fuel + 1, i, r, σ =>
    if i < nodes then
      let c := σ.HashChildren (r.getD (i - 1) Slice.nil) (r.getD (i - 1) Slice.nil)
      Store.initLoop nodes fuel (i + 1) (r.set i c.1) c.2
    else (r, σ)

/-- The method `initNullHashes` over the store; its last statement,
`m.nullHashes = r`, is the one assignment to the receiver in the package. -/
def Store.initNullHashes (σ : Store) : Store :=
  let nodes := σ.Hash.Size * 8 + 1
  let r : List Slice := List.replicate nodes Slice.nil
  let a := σ.HashLeaf 0 NodeID2.zero Slice.nil
  let r := r.set 0 a.1
  let l := Store.initLoop nodes nodes 1 r a.2
  { l.2 with nullHashes := l.1 }

/-- The constructor `New` over the store, called when the heap is `heap`. -/
def Store.New (h : CryptoHash) (heap : List (List Byte)) : Store :=
  Store.initNullHashes { Hash := h, nullHashes := [], heap := heap }

/-- A call of one of the four exported methods, with its arguments. -/
inductive Call where
  | hashEmpty (treeID : Int) (root : NodeID2)
  | hashLeaf (treeID : Int) (id : NodeID2) (leaf : Slice)
  | hashChildren (l r : Slice)
  | bitLen

/-- What a call hands back: a slice value, an `int`, or a panic. -/
inductive Outcome where
  | digest (s : Slice)
  | int (n : Nat)
  | panicked (p : Panic)

/-- One call: what it hands back and the store the method body leaves. -/
def Store.call (σ : Store) : Call → Outcome × Store
  | Call.hashEmpty treeID root =>
    let e := σ.HashEmpty treeID root
    match e.1 with
    | Except.ok s => (Outcome.digest s, e.2)
    | Except.error p => (Outcome.panicked p, e.2)
  | Call.hashLeaf treeID id leaf =>
    let a := σ.HashLeaf treeID id leaf
    (Outcome.digest a.1, a.2)
  | Call.hashChildren l r =>
    let a := σ.HashChildren l r
    (Outcome.digest a.1, a.2)
  | Call.bitLen =>
    let b := σ.BitLen
    (Outcome.int b.1, b.2)

/-- A sequence of calls, in order: the store at the end. -/
def Store.calls (σ : Store) : List Call → Store
  | [] => σ
  | c :: cs => Store.calls (σ.call c).2 cs

/-! ## Hash functions used as concrete inputs -/

/-- A one-byte checksum: the sum of the bytes written, modulo `256`. -/
def sumHash : CryptoHash :=
  { Size := 1, Size_lt := by decide, digest := fun b => [b.foldl (· + ·) 0] }

/-- A collision-free "hash": the digest is the input itself. -/
def idHash : CryptoHash :=
  { Size := 1, Size_lt := by decide, digest := fun b => b }

/-- A checksum with a 32-byte digest, the size of SHA-256: the byte sum,
repeated 32 times. -/
def wideHash : CryptoHash :=
  { Size := 32, Size_lt := by decide, digest := fun b => List.replicate 32 (b.foldl (· + ·) 0) }

/-! ## Leaf and node hashes -/

theorem HashLeaf_digest (m : MapHasher) (treeID : Int) (id : NodeID2) (leaf : List Byte) :
    HashLeaf m treeID id leaf = m.Hash.digest (0 :: leaf) := by
  simp [HashLeaf, leafState, CryptoHash.New, HashState.Write, HashState.Sum, leafHashPrefix]

theorem HashChildren_digest (m : MapHasher) (l r : List Byte) :
    HashChildren m l r = m.Hash.digest (1 :: (l ++ r)) := by
  simp [HashChildren, childrenState, CryptoHash.New, HashState.Write, HashState.Sum,
    nodeHashPrefix]

theorem leafState_written (m : MapHasher) (leaf : List Byte) :
    (leafState m leaf).written = 0 :: leaf := by
  simp [leafState, CryptoHash.New, HashState.Write, leafHashPrefix]

theorem childrenState_written (m : MapHasher) (l r : List Byte) :
    (childrenState m l r).written = 1 :: (l ++ r) := by
  simp [childrenState, CryptoHash.New, HashState.Write, nodeHashPrefix]

/-! ## The table built by `initNullHashes` -/

theorem nullHashAt_succ (m : MapHasher) (k : Nat) :
    HashChildren m (nullHashAt m.Hash k) (nullHashAt m.Hash k) = nullHashAt m.Hash (k + 1) := by
  rw [HashChildren_digest, nullHashAt]

theorem initLoop_spec (m : MapHasher) (nodes : Nat) :
    ∀ (fuel i : Nat) (r : List Digest), r.length = nodes → 1 ≤ i → nodes ≤ fuel + i →
      (∀ k, k < i → k < nodes → r[k]? = some (nullHashAt m.Hash k)) →
      (initLoop m nodes fuel i r).length = nodes ∧
        ∀ k, k < nodes → (initLoop m nodes fuel i r)[k]? = some (nullHashAt m.Hash k) := by
  intro fuel
  induction fuel with
  | zero =>
    intro i r hlen _ hfuel hinv
    refine ⟨hlen, fun k hk => hinv k (by omega) hk⟩
  | succ fuel ih =>
    intro i r hlen hi hfuel hinv
    unfold initLoop
    by_cases hlt : i < nodes
    · rw [if_pos hlt]
      have hprev : r.getD (i - 1) [] = nullHashAt m.Hash (i - 1) := by
        rw [List.getD_eq_getElem?_getD, hinv (i - 1) (by omega) (by omega)]
        rfl
      rw [hprev, nullHashAt_succ, Nat.sub_add_cancel hi]
      apply ih
      · simpa using hlen
      · omega
      · omega
      · intro k hk hkn
        by_cases hki : k = i
        · subst hki
          rw [List.getElem?_set_self (by omega)]
        · rw [List.getElem?_set_ne (by omega)]
          exact hinv k (by omega) hkn
    · rw [if_neg hlt]
      exact ⟨hlen, fun k hk => hinv k (by omega) hk⟩

theorem New_Hash (h : CryptoHash) : (New h).Hash = h := rfl

theorem New_BitLen (h : CryptoHash) : BitLen (New h) = h.Size * 8 := rfl

theorem New_table (h : CryptoHash) :
    (New h).nullHashes.length = h.Size * 8 + 1 ∧
      ∀ k, k < h.Size * 8 + 1 → (New h).nullHashes[k]? = some (nullHashAt h k) := by
  unfold New initNullHashes
  apply initLoop_spec { Hash := h, nullHashes := [] } (h.Size * 8 + 1)
  · simp
  · exact Nat.le_refl 1
  · exact Nat.le_add_right _ _
  · intro k hk _
    obtain rfl : k = 0 := by omega
    rw [List.getElem?_set_self (by simp), HashLeaf_digest]
    rfl

theorem New_nullHashes_length (h : CryptoHash) :
    (New h).nullHashes.length = h.Size * 8 + 1 :=
  (New_table h).1

theorem New_nullHashes_getElem? (h : CryptoHash) (k : Nat) (hk : k ≤ h.Size * 8) :
    (New h).nullHashes[k]? = some (nullHashAt h k) :=
  (New_table h).2 k (by omega)

/-! ## The lookup `HashEmpty` -/

theorem guard_bound (h : CryptoHash) :
    intToUint (((New h).nullHashes.length : Int) * 8) = (h.Size * 8 + 1) * 8 := by
  have hs := h.Size_lt
  rw [New_nullHashes_length]
  unfold intToUint
  omega

theorem HashEmpty_ok (h : CryptoHash) (treeID : Int) (root : NodeID2)
    (hd : root.BitLen ≤ h.Size * 8) :
    HashEmpty (New h) treeID root = Except.ok (nullHashAt h (h.Size * 8 - root.BitLen)) := by
  have hs := h.Size_lt
  have hconv : uintToInt root.BitLen = (root.BitLen : Int) := by
    unfold uintToInt
    split <;> omega
  have hheight : ((BitLen (New h) : Nat) : Int) - uintToInt root.BitLen
      = ((h.Size * 8 - root.BitLen : Nat) : Int) := by
    rw [hconv, New_BitLen]
    omega
  unfold HashEmpty
  simp only [guard_bound, hheight]
  rw [if_neg (by omega)]
  unfold index
  rw [if_pos (Int.ofNat_nonneg _), Int.toNat_ofNat,
    New_nullHashes_getElem? h _ (Nat.sub_le _ _)]

theorem HashEmpty_error (h : CryptoHash) (treeID : Int) (root : NodeID2)
    (hd : h.Size * 8 < root.BitLen) :
    HashEmpty (New h) treeID root =
      Except.error (if (h.Size * 8 + 1) * 8 ≤ root.BitLen then Panic.outOfBounds root.BitLen
        else Panic.indexOutOfRange ((h.Size * 8 : Nat) - (root.BitLen : Int))
          (h.Size * 8 + 1)) := by
  have hs := h.Size_lt
  unfold HashEmpty
  simp only [guard_bound, ge_iff_le]
  by_cases hg : (h.Size * 8 + 1) * 8 ≤ root.BitLen
  · rw [if_pos hg, if_pos hg]
  · rw [if_neg hg, if_neg hg]
    have hconv : uintToInt root.BitLen = (root.BitLen : Int) := by
      unfold uintToInt
      split <;> omega
    rw [hconv, New_BitLen]
    unfold index
    rw [if_neg (by omega), New_nullHashes_length]

/-! ## The naive computation over an all-empty subtree -/

theorem merkleRoot_emptySubtree (m : MapHasher) (treeID : Int) :
    ∀ (k : Nat) (pos : NodeID2), merkleRoot m treeID (emptySubtree k pos) = nullHashAt m.Hash k := by
  intro k
  induction k with
  | zero =>
    intro pos
    simp [emptySubtree, merkleRoot, HashLeaf_digest, nullHashAt]
  | succ k ih =>
    intro pos
    simp [emptySubtree, merkleRoot, HashChildren_digest, nullHashAt, ih]

theorem leafValues_emptySubtree :
    ∀ (k : Nat) (pos : NodeID2), (emptySubtree k pos).leafValues = List.replicate (2 ^ k) [] := by
  intro k
  induction k with
  | zero =>
    intro pos
    simp [emptySubtree, Tree.leafValues]
  | succ k ih =>
    intro pos
    simp only [emptySubtree, Tree.leafValues, ih]
    rw [List.append_replicate_replicate]
    congr 1
    omega

theorem nullHashAt_iterate (m : MapHasher) (treeID : Int) (id : NodeID2) (k : Nat) :
    nullHashAt m.Hash k = (fun x => HashChildren m x x)^[k] (HashLeaf m treeID id []) := by
  induction k with
  | zero => simp [nullHashAt, HashLeaf_digest]
  | succ k ih =>
    rw [Function.iterate_succ_apply', ← ih, HashChildren_digest, nullHashAt]

/-! ## Digest lengths, collisions and the table recurrence -/

theorem nullHashAt_length (h : CryptoHash) (hlen : ∀ b, (h.digest b).length = h.Size) (k : Nat) :
    (nullHashAt h k).length = h.Size := by
  cases k with
  | zero => exact hlen _
  | succ k => exact hlen _

theorem append_self_inj (a b : List Byte) (hab : a ++ a = b ++ b) : a = b := by
  have hl : a.length = b.length := by
    have := congrArg List.length hab
    simp only [List.length_append] at this
    omega
  exact (List.append_inj hab hl).1

theorem nullHashAt_collision (h : CryptoHash) :
    ∀ i j, i < j → nullHashAt h i = nullHashAt h j →
      ∃ x y, x ≠ y ∧ h.digest x = h.digest y := by
  intro i
  induction i with
  | zero =>
    intro j hij heq
    obtain ⟨j, rfl⟩ : ∃ k, j = k + 1 := ⟨j - 1, by omega⟩
    simp only [nullHashAt] at heq
    exact ⟨_, _, fun hx => absurd (List.cons.inj hx).1 (by decide), heq⟩
  | succ i ih =>
    intro j hij heq
    obtain ⟨j, rfl⟩ : ∃ k, j = k + 1 := ⟨j - 1, by omega⟩
    simp only [nullHashAt] at heq
    by_cases hin : nullHashAt h i = nullHashAt h j
    · exact ih j (by omega) hin
    · exact ⟨_, _, fun hx => hin (append_self_inj _ _ (List.cons.inj hx).2), heq⟩

theorem New_nullHashes_rec (h : CryptoHash) (k : Nat) (h1 : 1 ≤ k) (hk : k ≤ h.Size * 8) :
    ∃ p, (New h).nullHashes[k - 1]? = some p ∧
      (New h).nullHashes[k]? = some (HashChildren (New h) p p) := by
  refine ⟨_, New_nullHashes_getElem? h (k - 1) (by omega), ?_⟩
  rw [New_nullHashes_getElem? h k hk, HashChildren_digest, New_Hash]
  obtain ⟨j, rfl⟩ : ∃ j, k = j + 1 := ⟨k - 1, by omega⟩
  rfl

/-! ## The heap model: reads, allocations and the method bodies -/

theorem Store.Extends.refl (σ : Store) : σ.Extends σ :=
  ⟨rfl, rfl, [], (List.append_nil _).symm⟩

theorem Store.Extends.trans {σ σ' σ'' : Store} (h1 : σ.Extends σ') (h2 : σ'.Extends σ'') :
    σ.Extends σ'' := by
  obtain ⟨hH, hN, e1, he1⟩ := h1
  obtain ⟨hH', hN', e2, he2⟩ := h2
  exact ⟨hH'.trans hH, hN'.trans hN, e1 ++ e2, by rw [he2, he1, List.append_assoc]⟩

theorem store_read_of_extends {σ σ' : Store} (hext : σ.Extends σ') (s : Slice)
    (hv : σ.valid s) : σ'.read s = σ.read s := by
  obtain ⟨_, _, extra, he⟩ := hext
  cases s with
  | nil => rfl
  | ref a =>
    simp only [Store.read, List.getD_eq_getElem?_getD, he]
    rw [List.getElem?_append_left hv]

theorem store_valid_of_extends {σ σ' : Store} (hext : σ.Extends σ') (s : Slice)
    (hv : σ.valid s) : σ'.valid s := by
  obtain ⟨_, _, extra, he⟩ := hext
  cases s with
  | nil => trivial
  | ref a =>
    simp only [Store.valid, he, List.length_append] at hv ⊢
    omega

theorem store_alloc_extends (σ : Store) (bs : List Byte) : σ.Extends (σ.alloc bs).2 :=
  ⟨rfl, rfl, [bs], rfl⟩

theorem store_read_alloc (σ : Store) (bs : List Byte) :
    (σ.alloc bs).2.read (σ.alloc bs).1 = bs := by
  simp only [Store.alloc, Store.read, List.getD_eq_getElem?_getD, List.getElem?_concat_length]
  rfl

theorem store_valid_alloc (σ : Store) (bs : List Byte) :
    (σ.alloc bs).2.valid (σ.alloc bs).1 := by
  simp [Store.alloc, Store.valid]

theorem store_appendNil_extends (σ : Store) (bs : List Byte) :
    σ.Extends (σ.appendNil bs).2 := by
  unfold Store.appendNil
  split
  · exact Store.Extends.refl σ
  · exact store_alloc_extends σ bs

theorem store_read_appendNil (σ : Store) (bs : List Byte) :
    (σ.appendNil bs).2.read (σ.appendNil bs).1 = bs := by
  unfold Store.appendNil
  split
  · next hb => exact (List.isEmpty_iff.mp hb).symm
  · exact store_read_alloc σ bs

theorem store_valid_appendNil (σ : Store) (bs : List Byte) :
    (σ.appendNil bs).2.valid (σ.appendNil bs).1 := by
  unfold Store.appendNil
  split
  · trivial
  · exact store_valid_alloc σ bs

theorem store_HashLeaf_extends (σ : Store) (treeID : Int) (id : NodeID2) (leaf : Slice) :
    σ.Extends (σ.HashLeaf treeID id leaf).2 :=
  (store_alloc_extends σ _).trans (store_appendNil_extends _ _)

theorem store_HashLeaf_valid (σ : Store) (treeID : Int) (id : NodeID2) (leaf : Slice) :
    (σ.HashLeaf treeID id leaf).2.valid (σ.HashLeaf treeID id leaf).1 :=
  store_valid_appendNil _ _

theorem store_HashLeaf_read (σ : Store) (treeID : Int) (id : NodeID2) (leaf : Slice)
    (hv : σ.valid leaf) :
    (σ.HashLeaf treeID id leaf).2.read (σ.HashLeaf treeID id leaf).1
      = HashLeaf σ.toMapHasher treeID id (σ.read leaf) := by
  unfold Store.HashLeaf
  simp only [store_read_appendNil, store_read_alloc,
    store_read_of_extends (store_alloc_extends σ _) leaf hv]
  rfl

theorem store_HashChildren_extends (σ : Store) (l r : Slice) :
    σ.Extends (σ.HashChildren l r).2 :=
  (store_alloc_extends σ _).trans (store_appendNil_extends _ _)

theorem store_HashChildren_valid (σ : Store) (l r : Slice) :
    (σ.HashChildren l r).2.valid (σ.HashChildren l r).1 :=
  store_valid_appendNil _ _

theorem store_HashChildren_read (σ : Store) (l r : Slice) (hl : σ.valid l) (hr : σ.valid r) :
    (σ.HashChildren l r).2.read (σ.HashChildren l r).1
      = HashChildren σ.toMapHasher (σ.read l) (σ.read r) := by
  unfold Store.HashChildren
  simp only [store_read_appendNil, store_read_alloc,
    store_read_of_extends (store_alloc_extends σ _) l hl,
    store_read_of_extends (store_alloc_extends σ _) r hr]
  rfl

theorem store_BitLen_store (σ : Store) : σ.BitLen.2 = σ := rfl

theorem store_HashEmpty_store (σ : Store) (treeID : Int) (root : NodeID2) :
    (σ.HashEmpty treeID root).2 = σ := by
  unfold Store.HashEmpty
  dsimp only
  split <;> rfl

theorem index_map {α β : Type} (f : α → β) (xs : List α) (i : Int) :
    index (xs.map f) i = (index xs i).map f := by
  unfold index
  split
  · rw [List.getElem?_map, List.length_map]
    cases xs[i.toNat]? <;> rfl
  · rw [List.length_map]
    rfl

theorem store_HashEmpty_result (σ : Store) (treeID : Int) (root : NodeID2) :
    (σ.HashEmpty treeID root).1.map σ.read = HashEmpty σ.toMapHasher treeID root := by
  unfold Store.HashEmpty HashEmpty
  simp only [Store.toMapHasher, Store.table, List.length_map]
  split
  · rfl
  · exact (index_map σ.read σ.nullHashes _).symm

/-! ## The heap model: calls, and the table `New` builds -/

theorem store_call_extends (σ : Store) (c : Call) : σ.Extends (σ.call c).2 := by
  cases c with
  | hashEmpty treeID root =>
    have hst : ((Store.call σ (Call.hashEmpty treeID root)).2) = σ := by
      simp only [Store.call]
      cases hres : (σ.HashEmpty treeID root).1 <;> exact store_HashEmpty_store σ treeID root
    rw [hst]
    exact Store.Extends.refl σ
  | hashLeaf treeID id leaf => exact store_HashLeaf_extends σ treeID id leaf
  | hashChildren l r => exact store_HashChildren_extends σ l r
  | bitLen => exact Store.Extends.refl σ

theorem store_calls_extends (cs : List Call) : ∀ σ : Store, σ.Extends (σ.calls cs) := by
  induction cs with
  | nil => exact fun σ => Store.Extends.refl σ
  | cons c cs ih => exact fun σ => (store_call_extends σ c).trans (ih _)

theorem store_table_of_extends {σ σ' : Store} (hext : σ.Extends σ')
    (hv : ∀ s, s ∈ σ.nullHashes → σ.valid s) : σ'.table = σ.table := by
  unfold Store.table
  rw [hext.2.1]
  exact List.map_congr_left fun s hs => store_read_of_extends hext s (hv s hs)

theorem store_initLoop_spec (h : CryptoHash) (nodes : Nat) :
    ∀ (fuel i : Nat) (r : List Slice) (σ : Store), σ.Hash = h → r.length = nodes → 1 ≤ i →
      nodes ≤ fuel + i →
      (∀ k, k < i → k < nodes →
        ∃ s, r[k]? = some s ∧ σ.valid s ∧ σ.read s = nullHashAt h k) →
      σ.Extends (Store.initLoop nodes fuel i r σ).2 ∧
        (Store.initLoop nodes fuel i r σ).1.length = nodes ∧
        ∀ k, k < nodes →
          ∃ s, (Store.initLoop nodes fuel i r σ).1[k]? = some s ∧
            (Store.initLoop nodes fuel i r σ).2.valid s ∧
            (Store.initLoop nodes fuel i r σ).2.read s = nullHashAt h k := by
  intro fuel
  induction fuel with
  | zero =>
    intro i r σ _ hlen _ hfuel hinv
    exact ⟨Store.Extends.refl σ, hlen, fun k hk => hinv k (by omega) hk⟩
  | succ fuel ih =>
    intro i r σ hH hlen hi hfuel hinv
    unfold Store.initLoop
    by_cases hlt : i < nodes
    · rw [if_pos hlt]
      obtain ⟨s, hs, hsv, hsr⟩ := hinv (i - 1) (by omega) (by omega)
      have hprev : r.getD (i - 1) Slice.nil = s := by
        rw [List.getD_eq_getElem?_getD, hs]
        rfl
      have hext := store_HashChildren_extends σ s s
      have hread : (σ.HashChildren s s).2.read (σ.HashChildren s s).1 = nullHashAt h i := by
        rw [store_HashChildren_read σ s s hsv hsv, HashChildren_digest, hsr]
        obtain ⟨j, rfl⟩ : ∃ j, i = j + 1 := ⟨i - 1, by omega⟩
        simp only [Store.toMapHasher, hH, Nat.add_sub_cancel, nullHashAt]
      simp only [hprev]
      have hrec := ih (i + 1) (r.set i (σ.HashChildren s s).1) (σ.HashChildren s s).2
        (hext.1.trans hH) (by simpa using hlen) (by omega) (by omega) (by
          intro k hk hkn
          by_cases hki : k = i
          · subst hki
            exact ⟨_, List.getElem?_set_self (by omega), store_HashChildren_valid σ s s, hread⟩
          · obtain ⟨t, ht, htv, htr⟩ := hinv k (by omega) hkn
            refine ⟨t, ?_, store_valid_of_extends hext t htv, ?_⟩
            · rw [List.getElem?_set_ne (by omega)]
              exact ht
            · rw [store_read_of_extends hext t htv]
              exact htr)
      exact ⟨hext.trans hrec.1, hrec.2⟩
    · rw [if_neg hlt]
      exact ⟨Store.Extends.refl σ, hlen, fun k hk => hinv k (by omega) hk⟩

theorem store_New_spec (h : CryptoHash) (heap : List (List Byte)) :
    (Store.New h heap).Hash = h ∧
      (∃ extra, (Store.New h heap).heap = heap ++ extra) ∧
      (Store.New h heap).nullHashes.length = h.Size * 8 + 1 ∧
      ∀ k, k < h.Size * 8 + 1 →
        ∃ s, (Store.New h heap).nullHashes[k]? = some s ∧ (Store.New h heap).valid s ∧
          (Store.New h heap).read s = nullHashAt h k := by
  have hleaf := store_HashLeaf_extends { Hash := h, nullHashes := [], heap := heap } 0
    NodeID2.zero Slice.nil
  have hloop := store_initLoop_spec h (h.Size * 8 + 1) (h.Size * 8 + 1) 1
    ((List.replicate (h.Size * 8 + 1) Slice.nil).set 0
      (Store.HashLeaf { Hash := h, nullHashes := [], heap := heap } 0 NodeID2.zero Slice.nil).1)
    (Store.HashLeaf { Hash := h, nullHashes := [], heap := heap } 0 NodeID2.zero Slice.nil).2
    hleaf.1 (by simp) (Nat.le_refl 1) (Nat.le_add_right _ _) (by
      intro k hk _
      obtain rfl : k = 0 := by omega
      refine ⟨_, List.getElem?_set_self (by simp), store_HashLeaf_valid _ _ _ _, ?_⟩
      rw [store_HashLeaf_read { Hash := h, nullHashes := [], heap := heap } 0 NodeID2.zero
        Slice.nil trivial, HashLeaf_digest]
      rfl)
  obtain ⟨hext, hlen, hall⟩ := hloop
  have hheap := (hleaf.trans hext).2.2
  refine ⟨(hleaf.trans hext).1, hheap, hlen, fun k hk => ?_⟩
  obtain ⟨s, hs, hsv, hsr⟩ := hall k hk
  exact ⟨s, hs, hsv, hsr⟩

theorem store_New_valid (h : CryptoHash) (heap : List (List Byte)) :
    ∀ s, s ∈ (Store.New h heap).nullHashes → (Store.New h heap).valid s := by
  intro s hs
  obtain ⟨k, hk, hget⟩ := List.getElem_of_mem hs
  obtain ⟨t, ht, htv, _⟩ := (store_New_spec h heap).2.2.2 k
    (by rw [← (store_New_spec h heap).2.2.1]; exact hk)
  rw [List.getElem?_eq_getElem hk, hget] at ht
  rw [Option.some.inj ht]
  exact htv

theorem store_New_table (h : CryptoHash) (heap : List (List Byte)) :
    (Store.New h heap).table = (New h).nullHashes := by
  apply List.ext_getElem?
  intro k
  unfold Store.table
  rw [List.getElem?_map]
  by_cases hk : k < h.Size * 8 + 1
  · obtain ⟨s, hs, _, hsr⟩ := (store_New_spec h heap).2.2.2 k hk
    rw [hs, New_nullHashes_getElem? h k (by omega), Option.map_some', hsr]
  · rw [List.getElem?_eq_none (by rw [(store_New_spec h heap).2.2.1]; omega),
      List.getElem?_eq_none (by rw [New_nullHashes_length]; omega)]
    rfl

theorem store_HashEmpty_alias (h : CryptoHash) (heap : List (List Byte)) (treeID : Int)
    (root : NodeID2) (hd : root.BitLen ≤ h.Size * 8) :
    ∃ s, (Store.New h heap).nullHashes[h.Size * 8 - root.BitLen]? = some s ∧
      ((Store.New h heap).HashEmpty treeID root).1 = Except.ok s := by
  have hs := h.Size_lt
  obtain ⟨hH, _, hlen, hall⟩ := store_New_spec h heap
  obtain ⟨s, hget, _, _⟩ := hall (h.Size * 8 - root.BitLen) (by omega)
  refine ⟨s, hget, ?_⟩
  have hconv : uintToInt root.BitLen = (root.BitLen : Int) := by
    unfold uintToInt
    split <;> omega
  have hguard : intToUint (((Store.New h heap).nullHashes.length : Int) * 8)
      = (h.Size * 8 + 1) * 8 := by
    rw [hlen]
    unfold intToUint
    omega
  have hheight : (((Store.New h heap).BitLen.1 : Nat) : Int) - uintToInt root.BitLen
      = ((h.Size * 8 - root.BitLen : Nat) : Int) := by
    simp only [Store.BitLen, hH, hconv]
    omega
  unfold Store.HashEmpty
  simp only [hguard, hheight]
  rw [if_neg (by omega)]
  simp only [Store.BitLen]
  unfold index
  rw [if_pos (Int.ofNat_nonneg _), Int.toNat_ofNat, hget]

theorem initNullHashes_reassigns_table :
    (Store.initNullHashes (Store.New sumHash [])).nullHashes
        ≠ (Store.New sumHash []).nullHashes ∧
      (Store.initNullHashes (Store.New sumHash [])).table = (Store.New sumHash []).table :=
  ⟨by decide, by decide⟩

theorem write_through_HashEmpty_result :
    ((Store.New sumHash []).HashEmpty 0 { path := [] }).1 = Except.ok (Slice.ref 17) ∧
      (Store.New sumHash []).nullHashes[8]? = some (Slice.ref 17) ∧
      (Store.New sumHash []).table[8]? = some [255] ∧
      ((Store.New sumHash []).write (Slice.ref 17) 0 7).table[8]? = some [7] :=
  ⟨rfl, rfl, rfl, rfl⟩

/-! ## Verified claims -/

/-- C1: for every hasher and every leaf (the empty one included), `HashLeaf`
returns the hash of the byte `0x00` followed by the bytes of the leaf; it is a
total function, so it never fails. -/
theorem HashLeaf_eq (m : MapHasher) (treeID : Int) (id : NodeID2) (leaf : List Byte) :
    HashLeaf m treeID id leaf = m.Hash.digest ((0 : Byte) :: leaf) :=
  HashLeaf_digest m treeID id leaf

/-- C2: for every hasher and every two byte strings `l` and `r` of any
lengths, `HashChildren l r` is the hash of the byte `0x01`, then `l`, then
`r`; it is a total function, so it never fails. -/
theorem HashChildren_eq (m : MapHasher) (l r : List Byte) :
    HashChildren m l r = m.Hash.digest ((1 : Byte) :: (l ++ r)) :=
  HashChildren_digest m l r

/-- C3: on a hasher returned by `New`, for every node ID whose depth is at
most `BitLen`, `HashEmpty` succeeds and returns the entry of the null-hash
table at index `height = BitLen - depth`. -/
theorem HashEmpty_eq_table (h : CryptoHash) (treeID : Int) (root : NodeID2)
    (hd : root.BitLen ≤ BitLen (New h)) :
    ∃ d, (New h).nullHashes[BitLen (New h) - root.BitLen]? = some d ∧
      HashEmpty (New h) treeID root = Except.ok d := by
  rw [New_BitLen] at hd ⊢
  exact ⟨_, New_nullHashes_getElem? h _ (Nat.sub_le _ _), HashEmpty_ok h treeID root hd⟩

theorem HashEmpty_eq_table_witness :
    NodeID2.BitLen { path := [true, false, true] } ≤ BitLen (New sumHash) ∧
      ∃ d, (New sumHash).nullHashes[BitLen (New sumHash)
          - NodeID2.BitLen { path := [true, false, true] }]? = some d ∧
        HashEmpty (New sumHash) 7 { path := [true, false, true] } = Except.ok d :=
  ⟨by decide, HashEmpty_eq_table sumHash 7 { path := [true, false, true] } (by decide)⟩

/-- C4: on a hasher returned by `New`, entry `0` of the null-hash table is
`HashLeaf` of the empty byte string, and for every `k` with
`1 ≤ k ≤ BitLen`, entry `k` is `HashChildren` of entry `k - 1` with itself. -/
theorem New_nullHashes_invariant (h : CryptoHash) :
    (∀ (treeID : Int) (id : NodeID2),
      (New h).nullHashes[0]? = some (HashLeaf (New h) treeID id [])) ∧
    ∀ k, 1 ≤ k → k ≤ BitLen (New h) →
      ∃ p, (New h).nullHashes[k - 1]? = some p ∧
        (New h).nullHashes[k]? = some (HashChildren (New h) p p) := by
  refine ⟨fun treeID id => ?_, fun k h1 hk => ?_⟩
  · rw [New_nullHashes_getElem? h 0 (Nat.zero_le _), HashLeaf_digest, New_Hash]
    rfl
  · rw [New_BitLen] at hk
    refine ⟨_, New_nullHashes_getElem? h (k - 1) (by omega), ?_⟩
    rw [New_nullHashes_getElem? h k hk, HashChildren_digest, New_Hash]
    obtain ⟨j, rfl⟩ : ∃ j, k = j + 1 := ⟨k - 1, by omega⟩
    rfl

theorem New_nullHashes_invariant_witness :
    1 ≤ 3 ∧ 3 ≤ BitLen (New sumHash) ∧
      ∃ p, (New sumHash).nullHashes[3 - 1]? = some p ∧
        (New sumHash).nullHashes[3]? = some (HashChildren (New sumHash) p p) :=
  ⟨by decide, by decide, (New_nullHashes_invariant sumHash).2 3 (by decide) (by decide)⟩

/-- C5: on a hasher returned by `New`, `HashEmpty` panics (by its guard or by
the index check) if and only if the depth of the node exceeds `BitLen`, and
returns a digest if and only if the depth is at most `BitLen`; a node of depth
`BitLen + 1` makes it panic. -/
theorem HashEmpty_panics_iff (h : CryptoHash) (treeID : Int) (root : NodeID2) :
    ((∃ e, HashEmpty (New h) treeID root = Except.error e) ↔ BitLen (New h) < root.BitLen) ∧
    ((∃ d, HashEmpty (New h) treeID root = Except.ok d) ↔ root.BitLen ≤ BitLen (New h)) ∧
    ∃ e, HashEmpty (New h) treeID { path := List.replicate (BitLen (New h) + 1) false }
      = Except.error e := by
  rw [New_BitLen]
  have hs := h.Size_lt
  refine ⟨⟨?_, ?_⟩, ⟨?_, ?_⟩, ?_⟩
  · rintro ⟨e, he⟩
    by_contra hle
    rw [HashEmpty_ok h treeID root (by omega)] at he
    cases he
  · intro hlt
    exact ⟨_, HashEmpty_error h treeID root hlt⟩
  · rintro ⟨d, hd⟩
    by_contra hlt
    rw [HashEmpty_error h treeID root (by omega)] at hd
    cases hd
  · intro hle
    exact ⟨_, HashEmpty_ok h treeID root hle⟩
  · refine ⟨_, HashEmpty_error h treeID _ ?_⟩
    simp only [NodeID2.BitLen, List.length_replicate]
    omega

/-- C6: the bytes that `HashLeaf v` writes to the hash function are
`0x00 || v`, the bytes that `HashChildren l r` writes are `0x01 || l || r`,
and the two buffers differ for all `v`, `l`, `r`, also for the leaf
`v = 0x01 || l || r`; hence for every injective hash function the two
digests differ. -/
theorem domain_separation (m : MapHasher) (treeID : Int) (id : NodeID2) (v l r : List Byte) :
    HashLeaf m treeID id v = m.Hash.digest (leafState m v).written ∧
    HashChildren m l r = m.Hash.digest (childrenState m l r).written ∧
    (leafState m v).written = 0 :: v ∧
    (childrenState m l r).written = 1 :: (l ++ r) ∧
    (leafState m v).written ≠ (childrenState m l r).written ∧
    (leafState m (1 :: (l ++ r))).written ≠ (childrenState m l r).written ∧
    (Function.Injective m.Hash.digest → HashLeaf m treeID id v ≠ HashChildren m l r) := by
  have hne : ∀ w : List Byte, (leafState m w).written ≠ (childrenState m l r).written := by
    intro w hw
    rw [leafState_written, childrenState_written] at hw
    exact absurd (List.cons.inj hw).1 (by decide)
  refine ⟨?_, ?_, leafState_written m v, childrenState_written m l r, hne v, hne _, ?_⟩
  · rw [HashLeaf_digest, leafState_written]
  · rw [HashChildren_digest, childrenState_written]
  · intro hinj heq
    rw [HashLeaf_digest, HashChildren_digest] at heq
    exact absurd (List.cons.inj (hinj heq)).1 (by decide)

theorem domain_separation_witness :
    Function.Injective (New idHash).Hash.digest ∧
      HashLeaf (New idHash) 0 NodeID2.zero [1, 2, 3] ≠ HashChildren (New idHash) [2] [3] :=
  ⟨fun _ _ hab => hab,
    (domain_separation (New idHash) 0 NodeID2.zero [1, 2, 3] [2] [3]).2.2.2.2.2.2
      (fun _ _ hab => hab)⟩

/-- C7: the table lookup agrees with the naive computation.  On a hasher
returned by `New`, for every height `k ≤ BitLen`, `HashEmpty` at depth
`BitLen - k` returns the Merkle root computed recursively (`HashLeaf` on each
leaf, `HashChildren` on each pair of subtree roots) over the complete binary
tree of height `k` whose `2 ^ k` leaves all hold the empty value, at whatever
position `pos` that subtree is rooted. -/
theorem HashEmpty_eq_merkleRoot (h : CryptoHash) (treeID leafTreeID : Int) (k : Nat)
    (root pos : NodeID2) (hk : k ≤ BitLen (New h)) (hroot : root.BitLen = BitLen (New h) - k) :
    HashEmpty (New h) treeID root
        = Except.ok (merkleRoot (New h) leafTreeID (emptySubtree k pos)) ∧
      (emptySubtree k pos).leafValues = List.replicate (2 ^ k) [] := by
  rw [New_BitLen] at hk hroot
  refine ⟨?_, leafValues_emptySubtree k pos⟩
  rw [HashEmpty_ok h treeID root (by omega), merkleRoot_emptySubtree, New_Hash, hroot]
  congr 2
  omega

theorem HashEmpty_eq_merkleRoot_witness :
    2 ≤ BitLen (New sumHash) ∧
      NodeID2.BitLen { path := [true, false, true, true, false, false] }
        = BitLen (New sumHash) - 2 ∧
      HashEmpty (New sumHash) 0 { path := [true, false, true, true, false, false] }
        = Except.ok (merkleRoot (New sumHash) 1
            (emptySubtree 2 { path := [false, false, false, false, false, true] })) ∧
      (emptySubtree 2 { path := [false, false, false, false, false, true] }).leafValues
        = List.replicate (2 ^ 2) [] :=
  ⟨by decide, by decide,
    HashEmpty_eq_merkleRoot sumHash 0 1 2 { path := [true, false, true, true, false, false] }
      { path := [false, false, false, false, false, true] } (by decide) (by decide)⟩

/-- C8: the null-table recurrence at the public interface.  On a hasher
returned by `New`, for every height `k` with `1 ≤ k ≤ BitLen`, a node `n` of
depth `BitLen - k` and a node `c` of depth `BitLen - (k - 1)` (one level
deeper): `HashEmpty` succeeds on both, and its value at `n` is `HashChildren`
of its value at `c` with itself. -/
theorem HashEmpty_recurrence (h : CryptoHash) (treeID childTreeID : Int) (k : Nat)
    (n c : NodeID2) (h1 : 1 ≤ k) (hk : k ≤ BitLen (New h))
    (hn : n.BitLen = BitLen (New h) - k) (hc : c.BitLen = BitLen (New h) - (k - 1)) :
    ∃ x, HashEmpty (New h) childTreeID c = Except.ok x ∧
      HashEmpty (New h) treeID n = Except.ok (HashChildren (New h) x x) := by
  rw [New_BitLen] at hk hn hc
  refine ⟨_, HashEmpty_ok h childTreeID c (by omega), ?_⟩
  have hstep := nullHashAt_succ (New h) (h.Size * 8 - c.BitLen)
  rw [New_Hash] at hstep
  rw [HashEmpty_ok h treeID n (by omega), hstep]
  congr 2
  omega

theorem HashEmpty_recurrence_witness :
    1 ≤ 3 ∧ 3 ≤ BitLen (New sumHash) ∧
      NodeID2.BitLen { path := [true, true, false, true, false] } = BitLen (New sumHash) - 3 ∧
      NodeID2.BitLen { path := [false, true, false, true, false, true] }
        = BitLen (New sumHash) - (3 - 1) ∧
      ∃ x, HashEmpty (New sumHash) 2 { path := [false, true, false, true, false, true] }
          = Except.ok x ∧
        HashEmpty (New sumHash) 1 { path := [true, true, false, true, false] }
          = Except.ok (HashChildren (New sumHash) x x) :=
  ⟨by decide, by decide, by decide, by decide,
    HashEmpty_recurrence sumHash 1 2 3 { path := [true, true, false, true, false] }
      { path := [false, true, false, true, false, true] }
      (by decide) (by decide) (by decide) (by decide)⟩

/-- C9: the base case.  On a hasher returned by `New`, `HashEmpty` at a node
of depth `BitLen` returns `HashLeaf` of the empty byte string, which is the
hash of the single byte `0x00`. -/
theorem HashEmpty_leaf_level (h : CryptoHash) (treeID leafTreeID : Int) (root id : NodeID2)
    (hroot : root.BitLen = BitLen (New h)) :
    HashEmpty (New h) treeID root = Except.ok (HashLeaf (New h) leafTreeID id []) ∧
      HashLeaf (New h) leafTreeID id [] = h.digest [0] := by
  rw [New_BitLen] at hroot
  refine ⟨?_, by rw [HashLeaf_digest, New_Hash]⟩
  rw [HashEmpty_ok h treeID root (by omega), HashLeaf_digest, New_Hash, hroot, Nat.sub_self]
  rfl

theorem HashEmpty_leaf_level_witness :
    NodeID2.BitLen { path := [true, false, false, true, true, false, true, false] }
        = BitLen (New sumHash) ∧
      HashEmpty (New sumHash) 4 { path := [true, false, false, true, true, false, true, false] }
        = Except.ok (HashLeaf (New sumHash) 5 NodeID2.zero []) ∧
      HashLeaf (New sumHash) 5 NodeID2.zero [] = sumHash.digest [0] :=
  ⟨by decide,
    HashEmpty_leaf_level sumHash 4 5
      { path := [true, false, false, true, true, false, true, false] } NodeID2.zero
      (by decide)⟩

/-- C10: the root of the empty tree.  On a hasher returned by `New`,
`HashEmpty` at depth `d ≤ BitLen` is the `(BitLen - d)`-fold iteration of
`x ↦ HashChildren x x` starting from `HashLeaf` of the empty byte string; at
depth `0` it is the `BitLen`-fold iteration, which is the `256`-fold one when
the digest has `32` bytes. -/
theorem HashEmpty_iterate (h : CryptoHash) (treeID leafTreeID : Int) (root id : NodeID2)
    (hd : root.BitLen ≤ BitLen (New h)) :
    HashEmpty (New h) treeID root
        = Except.ok ((fun x => HashChildren (New h) x x)^[BitLen (New h) - root.BitLen]
            (HashLeaf (New h) leafTreeID id [])) ∧
      (root.BitLen = 0 →
        HashEmpty (New h) treeID root
          = Except.ok ((fun x => HashChildren (New h) x x)^[BitLen (New h)]
              (HashLeaf (New h) leafTreeID id []))) ∧
      (root.BitLen = 0 → h.Size = 32 →
        HashEmpty (New h) treeID root
          = Except.ok ((fun x => HashChildren (New h) x x)^[256]
              (HashLeaf (New h) leafTreeID id []))) := by
  have hgen : HashEmpty (New h) treeID root
      = Except.ok ((fun x => HashChildren (New h) x x)^[BitLen (New h) - root.BitLen]
          (HashLeaf (New h) leafTreeID id [])) := by
    rw [New_BitLen] at hd ⊢
    rw [HashEmpty_ok h treeID root hd, ← nullHashAt_iterate (New h) leafTreeID id, New_Hash]
  refine ⟨hgen, fun h0 => ?_, fun h0 h32 => ?_⟩
  · rw [hgen, h0, Nat.sub_zero]
  · rw [hgen, h0, Nat.sub_zero, New_BitLen, h32]

theorem HashEmpty_iterate_witness :
    NodeID2.BitLen { path := [] } ≤ BitLen (New sumHash) ∧
      HashEmpty (New sumHash) 0 { path := [] }
        = Except.ok ((fun x => HashChildren (New sumHash) x x)^[8]
            (HashLeaf (New sumHash) 0 NodeID2.zero [])) :=
  ⟨by decide,
    (HashEmpty_iterate sumHash 0 0 { path := [] } NodeID2.zero (by decide)).2.1 (by decide)⟩

/-- C11: order sensitivity.  For two digests `l ≠ r`, both of exactly `Size`
bytes, the buffers written by `HashChildren l r` and `HashChildren r l`,
`0x01 || l || r` and `0x01 || r || l`, differ; hence for every injective hash
function the two digests differ. -/
theorem HashChildren_order_sensitive (m : MapHasher) (l r : List Byte)
    (hl : l.length = m.Hash.Size) (hr : r.length = m.Hash.Size) (hne : l ≠ r) :
    (childrenState m l r).written = 1 :: (l ++ r) ∧
    (childrenState m r l).written = 1 :: (r ++ l) ∧
    (childrenState m l r).written ≠ (childrenState m r l).written ∧
    (Function.Injective m.Hash.digest → HashChildren m l r ≠ HashChildren m r l) := by
  have hbuf : (1 : Byte) :: (l ++ r) ≠ 1 :: (r ++ l) := by
    intro heq
    exact hne (List.append_inj (List.cons.inj heq).2 (hl.trans hr.symm)).1
  refine ⟨childrenState_written m l r, childrenState_written m r l, ?_, ?_⟩
  · rw [childrenState_written, childrenState_written]
    exact hbuf
  · intro hinj heq
    rw [HashChildren_digest, HashChildren_digest] at heq
    exact hbuf (hinj heq)

theorem HashChildren_order_sensitive_witness :
    [(2 : Byte)].length = (New idHash).Hash.Size ∧ [(3 : Byte)].length = (New idHash).Hash.Size ∧
      [(2 : Byte)] ≠ [3] ∧
      (childrenState (New idHash) [2] [3]).written = 1 :: ([2] ++ [3]) ∧
      (childrenState (New idHash) [3] [2]).written = 1 :: ([3] ++ [2]) ∧
      (childrenState (New idHash) [2] [3]).written ≠ (childrenState (New idHash) [3] [2]).written ∧
      (Function.Injective (New idHash).Hash.digest →
        HashChildren (New idHash) [2] [3] ≠ HashChildren (New idHash) [3] [2]) :=
  ⟨rfl, rfl, by decide,
    HashChildren_order_sensitive (New idHash) [2] [3] rfl rfl (by decide)⟩

/-- C12: `HashEmpty` depends only on the depth of the node.  For every hasher,
any two tree IDs and any two node IDs of the same bit length, the two calls
have the same outcome, the same digest or the same panic; the tree ID and the
path bits never matter. -/
theorem HashEmpty_depends_on_depth (m : MapHasher) (t1 t2 : Int) (n1 n2 : NodeID2)
    (hbits : n1.BitLen = n2.BitLen) :
    HashEmpty m t1 n1 = HashEmpty m t2 n2 := by
  unfold HashEmpty
  rw [hbits]

theorem HashEmpty_depends_on_depth_witness :
    NodeID2.BitLen { path := [true, false, true] } = NodeID2.BitLen { path := [false, false, false] } ∧
      HashEmpty (New sumHash) 1 { path := [true, false, true] }
        = HashEmpty (New sumHash) 2 { path := [false, false, false] } :=
  ⟨by decide,
    HashEmpty_depends_on_depth (New sumHash) 1 2 { path := [true, false, true] }
      { path := [false, false, false] } (by decide)⟩

/-- C13: `HashLeaf` is a function of the leaf bytes alone.  For every hasher,
two calls with equal leaf bytes return equal digests, whatever tree IDs and
node IDs are passed alongside. -/
theorem HashLeaf_deterministic (m : MapHasher) (t1 t2 : Int) (id1 id2 : NodeID2)
    (v1 v2 : List Byte) (hv : v1 = v2) :
    HashLeaf m t1 id1 v1 = HashLeaf m t2 id2 v2 := by
  rw [HashLeaf_digest, HashLeaf_digest, hv]

theorem HashLeaf_deterministic_witness :
    [(7 : Byte), 9] = [7, 9] ∧
      HashLeaf (New sumHash) 1 { path := [true] } [7, 9]
        = HashLeaf (New sumHash) 2 { path := [false, false] } [7, 9] :=
  ⟨rfl, HashLeaf_deterministic (New sumHash) 1 2 { path := [true] } { path := [false, false] }
    [7, 9] [7, 9] rfl⟩

/-- C14: on a hasher returned by `New`, the null-hash table has exactly
`BitLen + 1` entries, that is `8 * Size + 1`: index `k` holds an entry exactly
when `k ≤ BitLen`. -/
theorem New_nullHashes_size (h : CryptoHash) :
    (New h).nullHashes.length = BitLen (New h) + 1 ∧
    (New h).nullHashes.length = 8 * h.Size + 1 ∧
    ∀ k, k ≤ BitLen (New h) ↔ ∃ d, (New h).nullHashes[k]? = some d := by
  rw [New_BitLen, New_nullHashes_length]
  refine ⟨rfl, by omega, fun k => ⟨fun hk => ⟨_, New_nullHashes_getElem? h k hk⟩, ?_⟩⟩
  rintro ⟨d, hd⟩
  have hlt := (List.getElem?_eq_some_iff.mp hd).1
  rw [New_nullHashes_length] at hlt
  omega

/-- C15: assuming the hash function returns exactly `Size` bytes on every
input, every digest the hasher produces has exactly `Size` bytes: `HashLeaf`
of every leaf, `HashChildren` of every `l` and `r` of any lengths, every entry
of the null-hash table built by `New`, and every digest `HashEmpty` returns. -/
theorem digest_length (m : MapHasher) (hlen : ∀ b, (m.Hash.digest b).length = m.Hash.Size) :
    (∀ (treeID : Int) (id : NodeID2) (v : List Byte),
      (HashLeaf m treeID id v).length = m.Hash.Size) ∧
    (∀ l r : List Byte, (HashChildren m l r).length = m.Hash.Size) ∧
    (∀ d, d ∈ (New m.Hash).nullHashes → d.length = m.Hash.Size) ∧
    (∀ (treeID : Int) (root : NodeID2) (d : Digest),
      HashEmpty (New m.Hash) treeID root = Except.ok d → d.length = m.Hash.Size) := by
  have htable : ∀ d, d ∈ (New m.Hash).nullHashes → d.length = m.Hash.Size := by
    intro d hd
    obtain ⟨k, hk, hget⟩ := List.getElem_of_mem hd
    have hsome : (New m.Hash).nullHashes[k]? = some d := by
      rw [List.getElem?_eq_getElem hk, hget]
    rw [New_nullHashes_length] at hk
    rw [New_nullHashes_getElem? m.Hash k (by omega)] at hsome
    rw [← Option.some.inj hsome]
    exact nullHashAt_length m.Hash hlen k
  refine ⟨fun treeID id v => ?_, fun l r => ?_, htable, fun treeID root d hd => ?_⟩
  · rw [HashLeaf_digest]
    exact hlen _
  · rw [HashChildren_digest]
    exact hlen _
  · by_cases hle : root.BitLen ≤ m.Hash.Size * 8
    · rw [HashEmpty_ok m.Hash treeID root hle] at hd
      cases hd
      exact nullHashAt_length m.Hash hlen _
    · rw [HashEmpty_error m.Hash treeID root (by omega)] at hd
      cases hd

theorem digest_length_witness :
    (∀ b, ((New sumHash).Hash.digest b).length = (New sumHash).Hash.Size) ∧
      (HashLeaf (New sumHash) 0 NodeID2.zero [4, 5, 6]).length = (New sumHash).Hash.Size ∧
      (HashChildren (New sumHash) [1, 2] [3]).length = (New sumHash).Hash.Size :=
  ⟨fun _ => rfl,
    (digest_length (New sumHash) (fun _ => rfl)).1 0 NodeID2.zero [4, 5, 6],
    (digest_length (New sumHash) (fun _ => rfl)).2.1 [1, 2] [3]⟩

/-- C16: for every hasher over a hash function with a digest of `Size` bytes,
`BitLen` returns exactly `8 * Size`, which is `256` for the default hasher
over a 32-byte digest such as SHA-256; and on a hasher returned by `New` every
depth for which `HashEmpty` returns a digest is at most `BitLen`. -/
theorem BitLen_eq (m : MapHasher) (h sha256 : CryptoHash) (treeID : Int) (root : NodeID2) :
    BitLen m = 8 * m.Hash.Size ∧
    BitLen (New h) = 8 * h.Size ∧
    (sha256.Size = 32 → BitLen (Default sha256) = 256) ∧
    (∀ d, HashEmpty (New h) treeID root = Except.ok d → root.BitLen ≤ BitLen (New h)) := by
  refine ⟨Nat.mul_comm _ _, Nat.mul_comm _ _, fun h32 => ?_, fun d hd => ?_⟩
  · unfold Default
    rw [New_BitLen, h32]
  · rw [New_BitLen]
    by_contra hlt
    rw [HashEmpty_error h treeID root (by omega)] at hd
    cases hd

theorem BitLen_eq_witness :
    wideHash.Size = 32 ∧ BitLen (Default wideHash) = 256 :=
  ⟨rfl, (BitLen_eq (New wideHash) wideHash wideHash 0 NodeID2.zero).2.2.1 rfl⟩

/-- C17: the null-hash table is read-only after construction.  The four
methods are run over the store, where digests are references into a heap.  On
a hasher returned by `New`, after any sequence of calls of `HashLeaf`,
`HashChildren`, `HashEmpty` and `BitLen`, on any arguments (slices that alias
table entries and panicking `HashEmpty` calls included), the hash handle is
the same, the table holds the same slice values, every array of the heap has
the bytes it had, and so has every table entry; one more call of any method
keeps all that, and `HashEmpty` leaves the store as it is, panic or not.  The
hasher is therefore still the one `New` returned and the table invariant
holds. -/
theorem methods_preserve_table (h : CryptoHash) (heap : List (List Byte)) (cs : List Call) :
    ((Store.New h heap).calls cs).Hash = (Store.New h heap).Hash ∧
    ((Store.New h heap).calls cs).nullHashes = (Store.New h heap).nullHashes ∧
    (∃ extra, ((Store.New h heap).calls cs).heap = (Store.New h heap).heap ++ extra) ∧
    ((Store.New h heap).calls cs).table = (Store.New h heap).table ∧
    (∀ c : Call,
      (((Store.New h heap).calls cs).call c).2.Hash = (Store.New h heap).Hash ∧
      (((Store.New h heap).calls cs).call c).2.nullHashes = (Store.New h heap).nullHashes ∧
      (((Store.New h heap).calls cs).call c).2.table = (Store.New h heap).table) ∧
    (∀ (treeID : Int) (root : NodeID2),
      (((Store.New h heap).calls cs).HashEmpty treeID root).2 = (Store.New h heap).calls cs) ∧
    ((Store.New h heap).calls cs).toMapHasher = New h ∧
    ((Store.New h heap).calls cs).table[0]? = some (HashLeaf (New h) 0 NodeID2.zero []) ∧
    ∀ k, 1 ≤ k → k ≤ BitLen (New h) →
      ∃ p, ((Store.New h heap).calls cs).table[k - 1]? = some p ∧
        ((Store.New h heap).calls cs).table[k]? = some (HashChildren (New h) p p) := by
  have hext := store_calls_extends cs (Store.New h heap)
  have hvalid := store_New_valid h heap
  have htable := store_table_of_extends hext hvalid
  have hnew := store_New_table h heap
  have hH := (store_New_spec h heap).1
  refine ⟨hext.1, hext.2.1, hext.2.2, htable, fun c => ?_,
    fun treeID root => store_HashEmpty_store _ treeID root, ?_, ?_, fun k h1 hk => ?_⟩
  · have hext' := hext.trans (store_call_extends ((Store.New h heap).calls cs) c)
    exact ⟨hext'.1, hext'.2.1, store_table_of_extends hext' hvalid⟩
  · unfold Store.toMapHasher
    rw [htable, hnew, hext.1, hH]
    rfl
  · rw [htable, hnew, New_nullHashes_getElem? h 0 (Nat.zero_le _), HashLeaf_digest, New_Hash]
    rfl
  · rw [htable, hnew]
    exact New_nullHashes_rec h k h1 hk

theorem methods_preserve_table_witness :
    ((Store.New sumHash [[9]]).calls
        [Call.hashEmpty 0 { path := [] }, Call.hashLeaf 0 NodeID2.zero (Slice.ref 2),
          Call.hashEmpty 0 { path := List.replicate 9 false },
          Call.hashChildren (Slice.ref 2) (Slice.ref 18), Call.bitLen]).table
      = (Store.New sumHash [[9]]).table ∧
    ((Store.New sumHash [[9]]).calls
        [Call.hashEmpty 0 { path := [] }, Call.hashLeaf 0 NodeID2.zero (Slice.ref 2),
          Call.hashEmpty 0 { path := List.replicate 9 false },
          Call.hashChildren (Slice.ref 2) (Slice.ref 18), Call.bitLen]).toMapHasher
      = New sumHash :=
  ⟨(methods_preserve_table sumHash [[9]]
      [Call.hashEmpty 0 { path := [] }, Call.hashLeaf 0 NodeID2.zero (Slice.ref 2),
        Call.hashEmpty 0 { path := List.replicate 9 false },
        Call.hashChildren (Slice.ref 2) (Slice.ref 18), Call.bitLen]).2.2.2.1,
    (methods_preserve_table sumHash [[9]]
      [Call.hashEmpty 0 { path := [] }, Call.hashLeaf 0 NodeID2.zero (Slice.ref 2),
        Call.hashEmpty 0 { path := List.replicate 9 false },
        Call.hashChildren (Slice.ref 2) (Slice.ref 18), Call.bitLen]).2.2.2.2.2.2.1⟩

/-- C18: on a hasher returned by `New`, the explicit guard of `HashEmpty` (the
panic "out of bounds") fires exactly when `depth ≥ 8 * (BitLen + 1)`, the
table length times `8`.  For every depth with
`BitLen < depth < 8 * (BitLen + 1)`, such as `BitLen + 1`, the guard passes,
the height `BitLen - depth` is negative and the panic is the index check on
the table. -/
theorem HashEmpty_guard (h : CryptoHash) (treeID : Int) (root : NodeID2) :
    ((∃ d, HashEmpty (New h) treeID root = Except.error (Panic.outOfBounds d)) ↔
      8 * (BitLen (New h) + 1) ≤ root.BitLen) ∧
    (8 * (BitLen (New h) + 1) ≤ root.BitLen →
      HashEmpty (New h) treeID root = Except.error (Panic.outOfBounds root.BitLen)) ∧
    (BitLen (New h) < root.BitLen → root.BitLen < 8 * (BitLen (New h) + 1) →
      (BitLen (New h) : Int) - (root.BitLen : Int) < 0 ∧
      HashEmpty (New h) treeID root
        = Except.error (Panic.indexOutOfRange ((BitLen (New h) : Int) - (root.BitLen : Int))
            (New h).nullHashes.length)) ∧
    HashEmpty (New h) treeID { path := List.replicate (BitLen (New h) + 1) false }
      = Except.error (Panic.indexOutOfRange (-1) (BitLen (New h) + 1)) := by
  rw [New_BitLen, New_nullHashes_length]
  have hs := h.Size_lt
  have hhigh : (h.Size * 8 + 1) * 8 ≤ root.BitLen →
      HashEmpty (New h) treeID root = Except.error (Panic.outOfBounds root.BitLen) := by
    intro hge
    rw [HashEmpty_error h treeID root (by omega), if_pos hge]
  have hmid : ∀ n : NodeID2, h.Size * 8 < n.BitLen → n.BitLen < (h.Size * 8 + 1) * 8 →
      HashEmpty (New h) treeID n
        = Except.error (Panic.indexOutOfRange (((h.Size * 8 : Nat) : Int) - (n.BitLen : Int))
            (h.Size * 8 + 1)) := by
    intro n hlt hlt8
    rw [HashEmpty_error h treeID n hlt, if_neg (by omega)]
  refine ⟨⟨?_, fun hge => ⟨_, hhigh (by omega)⟩⟩, fun hge => hhigh (by omega),
    fun hlt hlt8 => ⟨by omega, hmid root hlt (by omega)⟩, ?_⟩
  · rintro ⟨d, hd⟩
    by_contra hlt8
    by_cases hle : root.BitLen ≤ h.Size * 8
    · rw [HashEmpty_ok h treeID root hle] at hd
      cases hd
    · rw [hmid root (by omega) (by omega)] at hd
      cases hd
  · have hbits : NodeID2.BitLen { path := List.replicate (h.Size * 8 + 1) false }
        = h.Size * 8 + 1 := by
      simp only [NodeID2.BitLen, List.length_replicate]
      omega
    rw [hmid _ (by omega) (by omega), hbits]
    congr 2
    omega

theorem HashEmpty_guard_witness :
    BitLen (New sumHash) < NodeID2.BitLen { path := List.replicate 20 true } ∧
      NodeID2.BitLen { path := List.replicate 20 true } < 8 * (BitLen (New sumHash) + 1) ∧
      (BitLen (New sumHash) : Int) - (NodeID2.BitLen { path := List.replicate 20 true } : Int) < 0 ∧
      HashEmpty (New sumHash) 3 { path := List.replicate 20 true }
        = Except.error (Panic.indexOutOfRange
            ((BitLen (New sumHash) : Int) - (NodeID2.BitLen { path := List.replicate 20 true } : Int))
            (New sumHash).nullHashes.length) :=
  ⟨by decide, by decide,
    (HashEmpty_guard sumHash 3 { path := List.replicate 20 true }).2.2.1 (by decide) (by decide)⟩

/-- C19: `HashChildren` depends on its two arguments only through their
concatenation: `HashChildren (a ++ b) c = HashChildren a (b ++ c)` for all
byte strings; in particular for `l` empty and `r` any non-empty byte string,
which differ and have different lengths,
`HashChildren l r = HashChildren r l`. -/
theorem HashChildren_concat (m : MapHasher) (a b c : List Byte) (x : Byte) (r : List Byte) :
    HashChildren m (a ++ b) c = HashChildren m a (b ++ c) ∧
    ([] : List Byte) ≠ x :: r ∧
    ([] : List Byte).length ≠ (x :: r).length ∧
    HashChildren m [] (x :: r) = HashChildren m (x :: r) [] := by
  refine ⟨?_, List.cons_ne_nil x r ∘ Eq.symm, by simp, ?_⟩
  · rw [HashChildren_digest, HashChildren_digest, List.append_assoc]
  · rw [HashChildren_digest, HashChildren_digest, List.nil_append, List.append_nil]

/-- C20: empty subtrees of different heights hash differently unless the hash
function collides.  On a hasher returned by `New`, for heights
`i < j ≤ BitLen`, if entries `i` and `j` of the null-hash table are equal then
there are two distinct byte strings with the same digest; so for an injective
hash function the two entries differ, and the whole table has no repeated
entry. -/
theorem nullHashes_distinct (h : CryptoHash) (i j : Nat) (hij : i < j)
    (hj : j ≤ BitLen (New h)) :
    ((New h).nullHashes[i]? = (New h).nullHashes[j]? →
      ∃ x y, x ≠ y ∧ h.digest x = h.digest y) ∧
    (Function.Injective h.digest → (New h).nullHashes[i]? ≠ (New h).nullHashes[j]?) ∧
    (Function.Injective h.digest → (New h).nullHashes.Nodup) := by
  have hcol : ∀ a b, a < b → b ≤ h.Size * 8 →
      (New h).nullHashes[a]? = (New h).nullHashes[b]? →
        ∃ x y, x ≠ y ∧ h.digest x = h.digest y := by
    intro a b hab hb heq
    rw [New_nullHashes_getElem? h a (by omega), New_nullHashes_getElem? h b hb] at heq
    exact nullHashAt_collision h a b hab (Option.some.inj heq)
  have hinj : Function.Injective h.digest → ∀ a b, a < b → b ≤ h.Size * 8 →
      (New h).nullHashes[a]? ≠ (New h).nullHashes[b]? := by
    intro hinj a b hab hb heq
    obtain ⟨x, y, hxy, hd⟩ := hcol a b hab hb heq
    exact hxy (hinj hd)
  rw [New_BitLen] at hj
  refine ⟨hcol i j hij hj, fun hi => hinj hi i j hij hj, fun hi => ?_⟩
  rw [List.nodup_iff_getElem?_ne_getElem?]
  intro a b hab hb
  rw [New_nullHashes_length] at hb
  exact hinj hi a b hab (by omega)

theorem nullHashes_distinct_witness :
    2 < 5 ∧ 5 ≤ BitLen (New idHash) ∧ Function.Injective idHash.digest ∧
      (New idHash).nullHashes[2]? ≠ (New idHash).nullHashes[5]? :=
  ⟨by decide, by decide, fun _ _ hab => hab,
    (nullHashes_distinct idHash 2 5 (by decide) (by decide)).2.1 (fun _ _ hab => hab)⟩

end maphasher
